import Mathlib

/-!
# Verification of `pi_convergents.py`

A shallow embedding, over exact rationals and integers, of the three
components of `pi_convergents.py`:

* `get_continued_fraction` — the coefficient generator (the Python code works
  on IEEE doubles; here the running remainder is an exact rational.  The
  Python termination test `math.isclose(fractional_part, 0)` uses the default
  `abs_tol = 0`, under which `isclose(f, 0)` holds exactly when `f == 0`, so
  the test is embedded as `rem - ⌊rem⌋ = 0`).
* `get_convergents` — the convergent builder, a pure integer recurrence,
  embedded verbatim.
* `find_pi_approximation_to_d_digits` — the search controller.  The
  floating-point quantities it consumes (the double value of `math.pi ** k`,
  the map `(p, q) ↦ (p/q)**(1/k)`, the error `|approx - math.pi|` and the
  tolerance `10**(-D)`) are irrational or rounding-dependent, so they enter
  the embedding as parameters (`x`, `approxF`, `errF`, `tol`); every control
  decision of the loop is embedded exactly as written.
-/

namespace PiConvergents

/-- Embedding of the loop body of `get_convergents`: the recurrence state is
`(p_prev2, p_prev1, q_prev2, q_prev1)`; for each coefficient `a` the pair
`(a * p_prev1 + p_prev2, a * q_prev1 + q_prev2)` is yielded and the state is
shifted. -/
def convergentsAux : ℤ → ℤ → ℤ → ℤ → List ℤ → List (ℤ × ℤ)
  | _, _, _, _, [] => []
  | pp2, pp1, qp2, qp1, a :: rest =>
    (a * pp1 + pp2, a * qp1 + qp2) ::
      convergentsAux pp1 (a * pp1 + pp2) qp1 (a * qp1 + qp2) rest

/-- Embedding of `get_convergents` (src/pi_convergents.py, lines 114-147):
seed state `p₋₂ = 0, p₋₁ = 1, q₋₂ = 1, q₋₁ = 0`, then one yielded pair per
coefficient. -/
def get_convergents (cf : List ℤ) : List (ℤ × ℤ) :=
  convergentsAux 0 1 1 0 cf

/-- The reference recurrence sequence of the specification: `recSeq as s0 s1`
is the sequence seeded with values `s0` (at index `0`, standing for index
`-2`) and `s1` (at index `1`, standing for index `-1`) and satisfying
`u (n+2) = as[n] * u (n+1) + u n`.  With seeds `0, 1` it is the numerator
sequence `p`, with seeds `1, 0` the denominator sequence `q`; index `n + 2`
holds the value the spec calls `p_n` (resp. `q_n`). -/
def recSeq (as : List ℤ) (s0 s1 : ℤ) : ℕ → ℤ
  | 0 => s0
  | 1 => s1
  | n + 2 => as.getD n 0 * recSeq as s0 s1 (n + 1) + recSeq as s0 s1 n

theorem recSeq_cons (a : ℤ) (as : List ℤ) (s0 s1 : ℤ) :
    ∀ n, recSeq (a :: as) s0 s1 (n + 1) = recSeq as s1 (a * s1 + s0) n
  | 0 => rfl
  | 1 => by simp [recSeq]
  | n + 2 => by
    have h1 := recSeq_cons a as s0 s1 (n + 1)
    have h2 := recSeq_cons a as s0 s1 n
    rw [show n + 2 + 1 = (n + 1) + 2 from rfl]
    conv_lhs => rw [recSeq]
    conv_rhs => rw [recSeq]
    rw [h1, h2, List.getD_cons_succ]

theorem convergentsAux_eq (as : List ℤ) : ∀ (s0 s1 t0 t1 : ℤ),
    convergentsAux s0 s1 t0 t1 as =
      (List.range as.length).map
        (fun i => (recSeq as s0 s1 (i + 2), recSeq as t0 t1 (i + 2))) := by
  induction as with
  | nil => intro s0 s1 t0 t1; rfl
  | cons a rest ih =>
    intro s0 s1 t0 t1
    rw [convergentsAux, ih, List.length_cons, List.range_succ_eq_map,
      List.map_cons, List.map_map]
    congr 1
    · apply List.map_congr_left
      intro i _
      show (recSeq rest s1 (a * s1 + s0) (i + 2), recSeq rest t1 (a * t1 + t0) (i + 2)) =
        (recSeq (a :: rest) s0 s1 (i + 1 + 2), recSeq (a :: rest) t0 t1 (i + 1 + 2))
      rw [show i + 1 + 2 = (i + 2) + 1 from rfl, recSeq_cons, recSeq_cons]

/-- `get_convergents` as an explicit indexed list of recurrence values. -/
theorem get_convergents_eq (as : List ℤ) :
    get_convergents as =
      (List.range as.length).map
        (fun i => (recSeq as 0 1 (i + 2), recSeq as 1 0 (i + 2))) :=
  convergentsAux_eq as 0 1 1 0

theorem get_convergents_length (as : List ℤ) :
    (get_convergents as).length = as.length := by
  rw [get_convergents_eq, List.length_map, List.length_range]

theorem get_convergents_getD (as : List ℤ) (i : ℕ) (h : i < as.length) :
    (get_convergents as).getD i (0, 0) =
      (recSeq as 0 1 (i + 2), recSeq as 1 0 (i + 2)) := by
  rw [get_convergents_eq, List.getD_eq_getElem?_getD, List.getElem?_map,
    List.getElem?_range h]
  rfl

/-- C1: for every list of integer coefficients, `get_convergents` emits
exactly one pair `(p, q)` per coefficient, in input order; the `n`-th emitted
pair is `(p_n, q_n)` where, from the seeds `p₋₂ = 0, p₋₁ = 1, q₋₂ = 1,
q₋₁ = 0`, the sequences satisfy `p_n = a_n * p_{n-1} + p_{n-2}` and
`q_n = a_n * q_{n-1} + q_{n-2}`; in particular the empty coefficient list
yields the empty output. -/
theorem C1_convergent_recurrence (as : List ℤ) :
    (get_convergents as).length = as.length ∧
    get_convergents as =
      (List.range as.length).map
        (fun i => (recSeq as 0 1 (i + 2), recSeq as 1 0 (i + 2))) ∧
    (∀ n, recSeq as 0 1 (n + 2) =
      as.getD n 0 * recSeq as 0 1 (n + 1) + recSeq as 0 1 n) ∧
    (∀ n, recSeq as 1 0 (n + 2) =
      as.getD n 0 * recSeq as 1 0 (n + 1) + recSeq as 1 0 n) ∧
    get_convergents ([] : List ℤ) = [] :=
  ⟨get_convergents_length as, get_convergents_eq as,
    fun _ => rfl, fun _ => rfl, rfl⟩

/-- The determinant of consecutive recurrence values alternates between `1`
and `-1`: `p_{n-1} * q_{n-2} - p_{n-2} * q_{n-1} = (-1)^n` in shifted
indices. -/
theorem recSeq_det (as : List ℤ) : ∀ n,
    recSeq as 0 1 (n + 1) * recSeq as 1 0 n -
      recSeq as 0 1 n * recSeq as 1 0 (n + 1) = (-1) ^ n
  | 0 => by simp [recSeq]
  | n + 1 => by
    have ih := recSeq_det as n
    have hp : recSeq as 0 1 (n + 2) =
        as.getD n 0 * recSeq as 0 1 (n + 1) + recSeq as 0 1 n := rfl
    have hq : recSeq as 1 0 (n + 2) =
        as.getD n 0 * recSeq as 1 0 (n + 1) + recSeq as 1 0 n := rfl
    rw [show n + 1 + 1 = n + 2 from rfl, hp, hq, pow_succ]
    linear_combination (-1 : ℤ) * ih

/-- Coefficients after the first, accessed by position, are at least `1`
whenever every element of the tail is. -/
theorem tail_coeff_ge_one {as : List ℤ} (hN : ∀ a ∈ as.tail, 1 ≤ a) :
    ∀ i, 1 ≤ i → i < as.length → 1 ≤ as.getD i 0 := by
  intro i h1 h2
  cases as with
  | nil => simp at h2
  | cons a t =>
    cases i with
    | zero => omega
    | succ j =>
      have hj : j < t.length := by simpa using h2
      rw [List.getD_cons_succ, List.getD_eq_getElem t 0 hj]
      exact hN _ (List.getElem_mem hj)

/-- Every denominator value `q_n` (shifted index `n + 2`) is at least `1`
when all coefficients after the first are at least `1`. -/
theorem recSeq_q_pos (as : List ℤ) (hN : ∀ a ∈ as.tail, 1 ≤ a) :
    ∀ n, n < as.length → 1 ≤ recSeq as 1 0 (n + 2)
  | 0, _ => by simp [recSeq]
  | 1, h => by
    have ha : 1 ≤ as.getD 1 0 := tail_coeff_ge_one hN 1 le_rfl h
    have e : recSeq as 1 0 (1 + 2) = as.getD 1 0 := by simp [recSeq]
    rw [e]
    exact ha
  | n + 2, h => by
    have h1 := recSeq_q_pos as hN (n + 1) (by omega)
    have h2 := recSeq_q_pos as hN n (by omega)
    have ha : 1 ≤ as.getD (n + 2) 0 := tail_coeff_ge_one hN (n + 2) (by omega) h
    have e : recSeq as 1 0 (n + 2 + 2) =
        as.getD (n + 2) 0 * recSeq as 1 0 (n + 1 + 2) + recSeq as 1 0 (n + 2) := rfl
    rw [e]
    nlinarith [h1, h2, ha]

/-- C3: for every coefficient sequence in continued-fraction normal form
(every coefficient after the first at least `1`), consecutive convergents
emitted by `get_convergents` satisfy the determinant identity
`p_{i+1} * q_i - p_i * q_{i+1} = 1` or `= -1`. -/
theorem C3_determinant_identity (as : List ℤ) (hN : ∀ a ∈ as.tail, 1 ≤ a)
    (i : ℕ) (h : i + 1 < as.length) :
    ((get_convergents as).getD (i + 1) (0, 0)).1 *
        ((get_convergents as).getD i (0, 0)).2 -
      ((get_convergents as).getD i (0, 0)).1 *
        ((get_convergents as).getD (i + 1) (0, 0)).2 = 1 ∨
    ((get_convergents as).getD (i + 1) (0, 0)).1 *
        ((get_convergents as).getD i (0, 0)).2 -
      ((get_convergents as).getD i (0, 0)).1 *
        ((get_convergents as).getD (i + 1) (0, 0)).2 = -1 := by
  rw [get_convergents_getD as i (by omega), get_convergents_getD as (i + 1) h]
  have hd := recSeq_det as (i + 2)
  rw [show i + 2 + 1 = i + 1 + 2 from rfl] at hd
  rcases Nat.even_or_odd (i + 2) with he | ho
  · left
    rw [show ((recSeq as 0 1 (i + 2), recSeq as 1 0 (i + 2)) : ℤ × ℤ).1 =
      recSeq as 0 1 (i + 2) from rfl]
    rw [hd, he.neg_one_pow]
  · right
    rw [show ((recSeq as 0 1 (i + 2), recSeq as 1 0 (i + 2)) : ℤ × ℤ).1 =
      recSeq as 0 1 (i + 2) from rfl]
    rw [hd, ho.neg_one_pow]

/-- Witness for C3 at the coefficient list `[3, 7]` and `i = 0`: the two
emitted convergents are `(3, 1)` and `(22, 7)`, and `22 * 1 - 3 * 7 = 1`. -/
theorem C3_witness :
    ((get_convergents [3, 7]).getD (0 + 1) (0, 0)).1 *
        ((get_convergents [3, 7]).getD 0 (0, 0)).2 -
      ((get_convergents [3, 7]).getD 0 (0, 0)).1 *
        ((get_convergents [3, 7]).getD (0 + 1) (0, 0)).2 = 1 ∨
    ((get_convergents [3, 7]).getD (0 + 1) (0, 0)).1 *
        ((get_convergents [3, 7]).getD 0 (0, 0)).2 -
      ((get_convergents [3, 7]).getD 0 (0, 0)).1 *
        ((get_convergents [3, 7]).getD (0 + 1) (0, 0)).2 = -1 :=
  C3_determinant_identity [3, 7] (by decide) 0 (by decide)

/-- C7: when every coefficient after the first is at least `1`, the
denominators of the convergents emitted by `get_convergents` are strictly
increasing from index `1` on. -/
theorem C7_q_strict_mono (as : List ℤ) (hN : ∀ a ∈ as.tail, 1 ≤ a)
    (i : ℕ) (h1 : 1 ≤ i) (h2 : i + 1 < as.length) :
    ((get_convergents as).getD i (0, 0)).2 <
      ((get_convergents as).getD (i + 1) (0, 0)).2 := by
  rw [get_convergents_getD as i (by omega), get_convergents_getD as (i + 1) h2]
  show recSeq as 1 0 (i + 2) < recSeq as 1 0 (i + 1 + 2)
  obtain ⟨j, rfl⟩ : ∃ j, i = j + 1 := ⟨i - 1, by omega⟩
  have hq2 := recSeq_q_pos as hN (j + 1) (by omega)
  have hq1 := recSeq_q_pos as hN j (by omega)
  have ha : 1 ≤ as.getD (j + 2) 0 :=
    tail_coeff_ge_one hN (j + 2) (by omega) (by omega)
  have e : recSeq as 1 0 (j + 1 + 1 + 2) =
      as.getD (j + 2) 0 * recSeq as 1 0 (j + 1 + 2) + recSeq as 1 0 (j + 2) := rfl
  rw [e]
  nlinarith [hq2, hq1, ha]

/-- Witness for C7 at `[3, 7, 15]` and `i = 1`: the denominators are
`1, 7, 106` and `7 < 106`. -/
theorem C7_witness :
    ((get_convergents [3, 7, 15]).getD 1 (0, 0)).2 <
      ((get_convergents [3, 7, 15]).getD (1 + 1) (0, 0)).2 :=
  C7_q_strict_mono [3, 7, 15] (by decide) 1 le_rfl (by decide)

/-- Counterexample to C8 as stated: for the input coefficient list `[1, 0]`
(which is not in normal form), `get_convergents` emits the pair `(1, 0)`,
a convergent with denominator `0`, contradicting "for every input
coefficient list, every pair `(p, q)` emitted has `q ≥ 1`". -/
theorem C8_counterexample :
    get_convergents [1, 0] = [(1, 1), (1, 0)] ∧
    ((get_convergents [1, 0]).getD 1 (0, 0)).2 = 0 := by
  constructor <;> rfl

/-- C8 as amended: for every coefficient list whose coefficients after the
first are at least `1` (exactly the lists the generator can produce), every
pair emitted by `get_convergents` has `q ≥ 1`, hence never `q = 0`. -/
theorem C8_amended_q_positive (as : List ℤ) (hN : ∀ a ∈ as.tail, 1 ≤ a) :
    ∀ pq ∈ get_convergents as, 1 ≤ pq.2 := by
  intro pq hmem
  rw [get_convergents_eq] at hmem
  obtain ⟨i, hi, rfl⟩ := List.mem_map.mp hmem
  exact recSeq_q_pos as hN i (List.mem_range.mp hi)

/-- Witness for the amended C8 at `[3, 7]` and the emitted pair `(22, 7)`. -/
theorem C8_witness : 1 ≤ (((22 : ℤ), (7 : ℤ)) : ℤ × ℤ).2 :=
  C8_amended_q_positive [3, 7] (by decide) (22, 7) (by decide)

/-- Counterexample to C4 as stated: the list `[2, -1]` contains the
non-positive coefficient `-1` after the first position, yet
`get_convergents` does not fail: it emits two convergents, the second one
computed from the coefficient `-1`.  No `InvalidCoefficient` error path
exists in the code. -/
theorem C4_counterexample :
    (get_convergents [2, -1]).length = 2 ∧
    (get_convergents [2, -1]).getD 1 (0, 0) = (-1, -1) := by
  constructor <;> rfl

/-- C4 as amended: `get_convergents` performs no coefficient validation:
even when the coefficient at a position `i ≥ 1` is non-positive, it emits
one convergent per coefficient, and the pair at position `i` is computed
from that coefficient by the recurrence. -/
theorem C4_amended_no_validation (as : List ℤ) (i : ℕ) (h1 : 1 ≤ i)
    (h2 : i < as.length) (hbad : as.getD i 0 ≤ 0) :
    (get_convergents as).length = as.length ∧
    (get_convergents as).getD i (0, 0) =
      (as.getD i 0 * recSeq as 0 1 (i + 1) + recSeq as 0 1 i,
       as.getD i 0 * recSeq as 1 0 (i + 1) + recSeq as 1 0 i) :=
  ⟨get_convergents_length as, by rw [get_convergents_getD as i h2]; rfl⟩

/-- Witness for the amended C4 at `[2, -1]` and `i = 1`. -/
theorem C4_witness :
    (get_convergents [2, -1]).length = ([2, -1] : List ℤ).length ∧
    (get_convergents [2, -1]).getD 1 (0, 0) =
      (([2, -1] : List ℤ).getD 1 0 * recSeq [2, -1] 0 1 (1 + 1) + recSeq [2, -1] 0 1 1,
       ([2, -1] : List ℤ).getD 1 0 * recSeq [2, -1] 1 0 (1 + 1) + recSeq [2, -1] 1 0 1) :=
  C4_amended_no_validation [2, -1] 1 le_rfl (by decide) (by decide)

/-- Embedding of the loop of `get_continued_fraction` (src/pi_convergents.py,
lines 75-111), with the running remainder an exact rational.  Each iteration
appends `⌊rem⌋`; the Python break test `math.isclose(fractional_part, 0)`
(default `abs_tol = 0`) holds exactly when the fractional part equals `0`,
and otherwise the remainder becomes `1 / fractional_part`. -/
def gcfList : ℕ → ℚ → List ℤ
  | 0, _ => []
  | n + 1, rem =>
    if rem - (⌊rem⌋ : ℚ) = 0 then [⌊rem⌋]
    else ⌊rem⌋ :: gcfList n (1 / (rem - (⌊rem⌋ : ℚ)))

/-- Embedding of `get_continued_fraction`: the function returns the bare
coefficient list. -/
def get_continued_fraction (x : ℚ) (maxTerms : ℕ) : List ℤ :=
  gcfList maxTerms x

/-- Modelled from the spec: `expand_continued_fraction(x, max_terms) ->
(CoefficientSequence, precision_exhausted: bool)` — the interface the spec
prescribes for the Coefficient Generator, absent from the source.  It runs
the same loop and additionally reports, as a boolean alongside the sequence,
whether the expansion stopped because the fractional remainder was
indistinguishable from zero (the `isclose` break). -/
def expand_continued_fraction : ℕ → ℚ → List ℤ × Bool
  | 0, _ => ([], false)
  | n + 1, rem =>
    if rem - (⌊rem⌋ : ℚ) = 0 then ([⌊rem⌋], true)
    else
      (⌊rem⌋ :: (expand_continued_fraction n (1 / (rem - (⌊rem⌋ : ℚ)))).1,
        (expand_continued_fraction n (1 / (rem - (⌊rem⌋ : ℚ)))).2)

theorem gcfList_succ_of_ne (n : ℕ) (rem : ℚ) (a : ℤ) (ha : ⌊rem⌋ = a)
    (hne : rem - (a : ℚ) ≠ 0) :
    gcfList (n + 1) rem = a :: gcfList n (1 / (rem - (a : ℚ))) := by
  rw [gcfList, ha, if_neg hne]

theorem gcfList_succ_of_eq (n : ℕ) (rem : ℚ) (a : ℤ) (ha : ⌊rem⌋ = a)
    (heq : rem - (a : ℚ) = 0) :
    gcfList (n + 1) rem = [a] := by
  rw [gcfList, ha, if_pos heq]

theorem gcfList_length : ∀ (n : ℕ) (x : ℚ), (gcfList n x).length ≤ n
  | 0, _ => le_rfl
  | n + 1, x => by
    rw [gcfList]
    by_cases hc : x - (⌊x⌋ : ℚ) = 0
    · rw [if_pos hc]; simp
    · rw [if_neg hc]
      have := gcfList_length n (1 / (x - (⌊x⌋ : ℚ)))
      simp only [List.length_cons]
      omega

theorem gcfList_ne_nil (x : ℚ) (n : ℕ) (h : 1 ≤ n) : gcfList n x ≠ [] := by
  obtain ⟨m, rfl⟩ : ∃ m, n = m + 1 := ⟨n - 1, by omega⟩
  rw [gcfList]
  by_cases hc : x - (⌊x⌋ : ℚ) = 0
  · rw [if_pos hc]; simp
  · rw [if_neg hc]; simp

/-- When the remainder exceeds `1`, every generated coefficient is at least
`1` (the floor of the remainder is, and each new remainder again exceeds
`1`). -/
theorem gcfList_all_ge_one : ∀ (n : ℕ) (rem : ℚ), 1 < rem →
    ∀ a ∈ gcfList n rem, 1 ≤ a
  | 0, rem, _, a, ha => by simp [gcfList] at ha
  | n + 1, rem, hrem, a, ha => by
    have hfl : 1 ≤ ⌊rem⌋ := by
      rw [Int.le_floor]; push_cast; linarith
    rw [gcfList] at ha
    by_cases hc : rem - (⌊rem⌋ : ℚ) = 0
    · rw [if_pos hc] at ha
      simp only [List.mem_singleton] at ha
      omega
    · rw [if_neg hc] at ha
      rcases List.mem_cons.mp ha with h | h
      · omega
      · have h0 : 0 ≤ rem - (⌊rem⌋ : ℚ) := by linarith [Int.floor_le rem]
        have h1 : rem - (⌊rem⌋ : ℚ) < 1 := by linarith [Int.lt_floor_add_one rem]
        have h0' : 0 < rem - (⌊rem⌋ : ℚ) := lt_of_le_of_ne h0 (Ne.symm hc)
        have hbig : 1 < 1 / (rem - (⌊rem⌋ : ℚ)) := by
          rw [lt_div_iff₀ h0']; linarith
        exact gcfList_all_ge_one n _ hbig a h

/-- Every coefficient after the first produced by the generator is at least
`1`: the generated list is always in continued-fraction normal form. -/
theorem gcfList_tail_ge_one (n : ℕ) (x : ℚ) :
    ∀ a ∈ (gcfList n x).tail, 1 ≤ a := by
  cases n with
  | zero => simp [gcfList]
  | succ m =>
    intro a ha
    rw [gcfList] at ha
    by_cases hc : x - (⌊x⌋ : ℚ) = 0
    · rw [if_pos hc] at ha; simp at ha
    · rw [if_neg hc] at ha
      rw [List.tail_cons] at ha
      have h0 : 0 ≤ x - (⌊x⌋ : ℚ) := by linarith [Int.floor_le x]
      have h1 : x - (⌊x⌋ : ℚ) < 1 := by linarith [Int.lt_floor_add_one x]
      have h0' : 0 < x - (⌊x⌋ : ℚ) := lt_of_le_of_ne h0 (Ne.symm hc)
      have hbig : 1 < 1 / (x - (⌊x⌋ : ℚ)) := by
        rw [lt_div_iff₀ h0']; linarith
      exact gcfList_all_ge_one m _ hbig a ha

/-- The source function returns exactly the first component of the
spec-modelled flagged expansion: the flag is dropped. -/
theorem gcfList_eq_expand_fst : ∀ (n : ℕ) (x : ℚ),
    gcfList n x = (expand_continued_fraction n x).1
  | 0, _ => rfl
  | n + 1, x => by
    by_cases hc : x - (⌊x⌋ : ℚ) = 0
    · rw [gcfList, expand_continued_fraction, if_pos hc, if_pos hc]
    · rw [gcfList, expand_continued_fraction, if_neg hc, if_neg hc]
      rw [gcfList_eq_expand_fst n]

/-- Counterexample to C5 as stated: `get_continued_fraction` gives the same
output `[1, 2]` on `3/2` (where the loop stopped because the fractional
remainder reached zero) and on `10/7` (where the loop stopped because the
term bound was reached); no `precision_exhausted` flag is returned alongside
the sequence, so the caller cannot observe which of the two happened. -/
theorem C5_counterexample :
    get_continued_fraction (3 / 2) 2 = get_continued_fraction (10 / 7) 2 ∧
    (expand_continued_fraction 2 (3 / 2)).2 = true ∧
    (expand_continued_fraction 2 (10 / 7)).2 = false := by
  have f32 : ⌊(3 / 2 : ℚ)⌋ = 1 := by norm_num [Int.floor_eq_iff]
  have f2 : ⌊(2 : ℚ)⌋ = 2 := by norm_num
  have f107 : ⌊(10 / 7 : ℚ)⌋ = 1 := by norm_num [Int.floor_eq_iff]
  have f73 : ⌊(7 / 3 : ℚ)⌋ = 2 := by norm_num [Int.floor_eq_iff]
  refine ⟨?_, ?_, ?_⟩
  · rw [get_continued_fraction, get_continued_fraction,
      gcfList_succ_of_ne 1 (3 / 2) 1 f32 (by norm_num),
      show (1 : ℚ) / (3 / 2 - (1 : ℤ)) = 2 by norm_num,
      gcfList_succ_of_eq 0 2 2 f2 (by norm_num),
      gcfList_succ_of_ne 1 (10 / 7) 1 f107 (by norm_num),
      show (1 : ℚ) / (10 / 7 - (1 : ℤ)) = 7 / 3 by norm_num,
      gcfList_succ_of_ne 0 (7 / 3) 2 f73 (by norm_num)]
    rfl
  · rw [expand_continued_fraction, f32, if_neg (by norm_num),
      show (1 : ℚ) / (3 / 2 - (1 : ℤ)) = 2 by norm_num,
      expand_continued_fraction, f2, if_pos (by norm_num)]
  · rw [expand_continued_fraction, f107, if_neg (by norm_num),
      show (1 : ℚ) / (10 / 7 - (1 : ℤ)) = 7 / 3 by norm_num,
      expand_continued_fraction, f73, if_neg (by norm_num)]
    rfl

/-- C5 as amended: `get_continued_fraction` returns only the coefficient
sequence — the first component of the spec's flagged expansion — and the
`precision_exhausted` flag the spec prescribes is not part of its return
value. -/
theorem C5_amended_list_only (x : ℚ) (n : ℕ) :
    get_continued_fraction x n = (expand_continued_fraction n x).1 :=
  gcfList_eq_expand_fst n x

/-- C9: for every rational `x` and positive term bound, the generated
coefficient sequence has length at most the bound, and when `x` is an
integer the sequence is exactly `[⌊x⌋]` (length `1`). -/
theorem C9_length_bound_and_integer (x : ℚ) (n : ℕ) (h : 1 ≤ n) :
    (get_continued_fraction x n).length ≤ n ∧
    (x.den = 1 → get_continued_fraction x n = [⌊x⌋]) := by
  constructor
  · exact gcfList_length n x
  · intro hden
    have hx : (x.num : ℚ) = x := Rat.coe_int_num_of_den_eq_one hden
    have hc : x - (⌊x⌋ : ℚ) = 0 := by
      have hfl : ⌊x⌋ = x.num := by
        conv_lhs => rw [← hx]
        exact Int.floor_intCast x.num
      rw [hfl, hx, sub_self]
    obtain ⟨m, rfl⟩ : ∃ m, n = m + 1 := ⟨n - 1, by omega⟩
    rw [get_continued_fraction, gcfList, if_pos hc]

/-- Witness for C9 at `x = 5`, `max_terms = 3`. -/
theorem C9_witness :
    (get_continued_fraction 5 3).length ≤ 3 ∧
    ((5 : ℚ).den = 1 → get_continued_fraction 5 3 = [⌊(5 : ℚ)⌋]) :=
  C9_length_bound_and_integer 5 3 (by norm_num)

/-- A Python value appearing in the result dictionary of
`find_pi_approximation_to_d_digits`: an integer, a float (modelled as a
rational), or a string. -/
inductive PyVal where
  | int (n : ℤ)
  | float (q : ℚ)
  | str (s : String)
deriving DecidableEq

/-- The success dictionary built at lines 194-201 of the source, with its
keys in source order. -/
def foundDict (k D p q : ℤ) (approx err : ℚ) : List (String × PyVal) :=
  [("power_k", PyVal.int k), ("digits_D", PyVal.int D),
   ("convergent_p", PyVal.int p), ("convergent_q", PyVal.int q),
   ("pi_approximation", PyVal.float approx), ("error", PyVal.float err)]

/-- The failure dictionary built at line 207 of the source. -/
def notFoundDict : List (String × PyVal) :=
  [("error", PyVal.str "Could not find a suitable approximation.")]

/-- `convergents[-1]` for the coefficient sequence of `x` at term bound
`numTerms`: the last convergent, or `none` when there is none (in Python an
`IndexError`). -/
def lastConvergent (x : ℚ) (numTerms : ℕ) : Option (ℤ × ℤ) :=
  (get_convergents (get_continued_fraction x numTerms)).getLast?

/-- One iteration of the `while True` loop of
`find_pi_approximation_to_d_digits` (lines 172-207): inspect the last
convergent; retry on `q = 0`; return the success dictionary when the error
is below tolerance; return the failure dictionary once the incremented term
count exceeds `50`; otherwise retry with one more term. -/
def findStep (k D : ℤ) (approxF errF : ℤ → ℤ → ℚ) (tol : ℚ) (numTerms : ℕ)
    (last : Option (ℤ × ℤ)) (next : Option (List (String × PyVal))) :
    Option (List (String × PyVal)) :=
  match last with
  | none => none
  | some (p, q) =>
    if q = 0 then next
    else if errF p q < tol then some (foundDict k D p q (approxF p q) (errF p q))
    else if 50 < numTerms + 1 then some notFoundDict
    else next

theorem findStep_some (k D : ℤ) (approxF errF : ℤ → ℤ → ℚ) (tol : ℚ)
    (numTerms : ℕ) (p q : ℤ) (next : Option (List (String × PyVal))) :
    findStep k D approxF errF tol numTerms (some (p, q)) next =
      if q = 0 then next
      else if errF p q < tol then some (foundDict k D p q (approxF p q) (errF p q))
      else if 50 < numTerms + 1 then some notFoundDict
      else next := rfl

/-- The loop of `find_pi_approximation_to_d_digits`, with explicit fuel:
`none` stands for a run that did not return (the fuel is chosen large enough
that this is proved never to happen). -/
def findAux (k D : ℤ) (x : ℚ) (approxF errF : ℤ → ℤ → ℚ) (tol : ℚ) :
    ℕ → ℕ → Option (List (String × PyVal))
  | 0, _ => none
  | fuel + 1, numTerms =>
    findStep k D approxF errF tol numTerms (lastConvergent x numTerms)
      (findAux k D x approxF errF tol fuel (numTerms + 1))

/-- Embedding of `find_pi_approximation_to_d_digits` (lines 150-207).  The
floating-point data is parametric: `x` stands for the double value of
`math.pi ** k`, `approxF p q` for `(p / q) ** (1 / k)`, `errF p q` for
`abs(approxF p q - math.pi)` and `tol` for `10 ** (-D)`.  The loop starts at
`num_terms = 2`; fuel `60` exceeds the at most `49` iterations the `50`-term
safety ceiling allows. -/
def find_pi_approximation_to_d_digits (k D : ℤ) (x : ℚ)
    (approxF errF : ℤ → ℤ → ℚ) (tol : ℚ) : Option (List (String × PyVal)) :=
  findAux k D x approxF errF tol 60 2

theorem getLast?_eq_getD (c : List (ℤ × ℤ)) (h : c ≠ []) :
    c.getLast? = some (c.getD (c.length - 1) (0, 0)) := by
  have hl : 0 < c.length := List.length_pos.mpr h
  rw [List.getLast?_eq_getElem?, List.getElem?_eq_getElem (by omega),
    List.getD_eq_getElem c (0, 0) (by omega)]

/-- The last convergent of a generated coefficient sequence always exists
and has denominator at least `1` — the `q == 0` retry branch of the
controller is unreachable and the `convergents[-1]` access never fails. -/
theorem lastConvergent_q_pos (x : ℚ) (n : ℕ) (h : 1 ≤ n) :
    ∃ p q, lastConvergent x n = some (p, q) ∧ 1 ≤ q := by
  have hne : get_continued_fraction x n ≠ [] := gcfList_ne_nil x n h
  have hlen : 0 < (get_continued_fraction x n).length := List.length_pos.mpr hne
  have hclen : (get_convergents (get_continued_fraction x n)).length =
      (get_continued_fraction x n).length := get_convergents_length _
  have hcne : get_convergents (get_continued_fraction x n) ≠ [] := by
    intro hnil
    rw [hnil] at hclen
    simp at hclen
    omega
  refine ⟨recSeq (get_continued_fraction x n) 0 1
      ((get_continued_fraction x n).length - 1 + 2),
    recSeq (get_continued_fraction x n) 1 0
      ((get_continued_fraction x n).length - 1 + 2), ?_, ?_⟩
  · rw [lastConvergent, getLast?_eq_getD _ hcne, hclen,
      get_convergents_getD _ ((get_continued_fraction x n).length - 1) (by omega)]
  · have hN : ∀ a ∈ (get_continued_fraction x n).tail, 1 ≤ a :=
      gcfList_tail_ge_one n x
    exact recSeq_q_pos _ hN ((get_continued_fraction x n).length - 1) (by omega)

theorem foundDict_ne_notFoundDict (k D p q : ℤ) (a e : ℚ) :
    foundDict k D p q a e ≠ notFoundDict := by
  intro h
  have hlen := congrArg List.length h
  simp [foundDict, notFoundDict] at hlen

theorem foundDict_inj {k D p q k' D' p' q' : ℤ} {a e a' e' : ℚ}
    (h : foundDict k D p q a e = foundDict k' D' p' q' a' e') :
    k = k' ∧ D = D' ∧ p = p' ∧ q = q' ∧ a = a' ∧ e = e' := by
  simp only [foundDict, List.cons.injEq, Prod.mk.injEq, PyVal.int.injEq,
    PyVal.float.injEq, and_true, true_and] at h
  tauto

/-- With fuel at least `51 - numTerms`, the loop always returns a value:
either the failure dictionary or a success dictionary whose fields come from
`approxF` and `errF` at a pair passing the tolerance test. -/
theorem findAux_returns (k D : ℤ) (x : ℚ) (approxF errF : ℤ → ℤ → ℚ)
    (tol : ℚ) : ∀ fuel numTerms, 2 ≤ numTerms → numTerms ≤ 50 →
    51 ≤ fuel + numTerms →
    ∃ r, findAux k D x approxF errF tol fuel numTerms = some r ∧
      (r = notFoundDict ∨
        ∃ p q, r = foundDict k D p q (approxF p q) (errF p q) ∧
          errF p q < tol ∧ 1 ≤ q) := by
  intro fuel
  induction fuel with
  | zero => intro numTerms h2 h50 hf; omega
  | succ fuel ih =>
    intro numTerms h2 h50 hf
    obtain ⟨p, q, hlast, hq⟩ := lastConvergent_q_pos x numTerms (by omega)
    rw [findAux, hlast, findStep_some, if_neg (by omega : ¬ q = 0)]
    by_cases herr : errF p q < tol
    · rw [if_pos herr]
      exact ⟨_, rfl, Or.inr ⟨p, q, rfl, herr, hq⟩⟩
    · rw [if_neg herr]
      by_cases hceil : 50 < numTerms + 1
      · rw [if_pos hceil]
        exact ⟨_, rfl, Or.inl rfl⟩
      · rw [if_neg hceil]
        exact ih (numTerms + 1) (by omega) (by omega) (by omega)

/-- A success return is the last convergent at the first term bound, from
the starting bound on, whose last convergent passes the tolerance test; the
approximation and error fields are `approxF` and `errF` at that pair. -/
theorem findAux_found_first (k D : ℤ) (x : ℚ) (approxF errF : ℤ → ℤ → ℚ)
    (tol : ℚ) : ∀ (fuel numTerms : ℕ) (p q : ℤ) (a e : ℚ), 2 ≤ numTerms →
    findAux k D x approxF errF tol fuel numTerms =
      some (foundDict k D p q a e) →
    a = approxF p q ∧ e = errF p q ∧ errF p q < tol ∧
    ∃ T, numTerms ≤ T ∧ lastConvergent x T = some (p, q) ∧
      ∀ T', numTerms ≤ T' → T' < T → ∀ p' q',
        lastConvergent x T' = some (p', q') → ¬ errF p' q' < tol := by
  intro fuel
  induction fuel with
  | zero =>
    intro numTerms p q a e h2 hfind
    rw [findAux] at hfind
    cases hfind
  | succ fuel ih =>
    intro numTerms p q a e h2 hfind
    obtain ⟨p0, q0, hlast, hq0⟩ := lastConvergent_q_pos x numTerms (by omega)
    rw [findAux, hlast, findStep_some, if_neg (by omega : ¬ q0 = 0)] at hfind
    by_cases herr : errF p0 q0 < tol
    · rw [if_pos herr] at hfind
      obtain ⟨-, -, hp, hq, ha, he⟩ := foundDict_inj (Option.some.inj hfind)
      subst hp
      subst hq
      exact ⟨ha.symm, he.symm, herr, numTerms, le_rfl, hlast,
        fun T' h1' h2' p' q' hl' => absurd h2' (by omega)⟩
    · rw [if_neg herr] at hfind
      by_cases hceil : 50 < numTerms + 1
      · rw [if_pos hceil] at hfind
        exact absurd (Option.some.inj hfind).symm
          (foundDict_ne_notFoundDict k D p q a e)
      · rw [if_neg hceil] at hfind
        obtain ⟨ha, he, herr2, T, hT, hlastT, hmin⟩ :=
          ih (numTerms + 1) p q a e (by omega) hfind
        refine ⟨ha, he, herr2, T, by omega, hlastT, ?_⟩
        intro T' h1' h2' p' q' hlast'
        rcases eq_or_lt_of_le h1' with heq | hlt
        · rw [← heq] at hlast'
          rw [hlast] at hlast'
          injection hlast' with hpq
          injection hpq with hp' hq'
          rw [← hp', ← hq']
          exact herr
        · exact hmin T' (by omega) h2' p' q' hlast'

/-- C2: whenever the search controller returns a success dictionary, its
approximation and error fields are the lifted root map `approxF` and the
error map `errF` evaluated at the returned `(p, q)`, the error is below the
tolerance, and `(p, q)` is the last convergent of the coefficient sequence
at the first term bound `T ≥ 2` whose last convergent passes the accuracy
test — the test is never applied to earlier convergents of a run. -/
theorem C2_success_first_bound (k D : ℤ) (hk : 1 ≤ k) (hD : 1 ≤ D) (x : ℚ)
    (approxF errF : ℤ → ℤ → ℚ) (tol : ℚ) (p q : ℤ) (a e : ℚ)
    (h : find_pi_approximation_to_d_digits k D x approxF errF tol =
      some (foundDict k D p q a e)) :
    a = approxF p q ∧ e = errF p q ∧ errF p q < tol ∧
    ∃ T, 2 ≤ T ∧ lastConvergent x T = some (p, q) ∧
      ∀ T', 2 ≤ T' → T' < T → ∀ p' q',
        lastConvergent x T' = some (p', q') → ¬ errF p' q' < tol :=
  findAux_found_first k D x approxF errF tol 60 2 p q a e le_rfl h

/-- Approximation map used by the concrete witnesses. -/
def wApprox : ℤ → ℤ → ℚ := fun _ _ => 3

/-- Error map used by the concrete witnesses. -/
def wErr : ℤ → ℤ → ℚ := fun _ _ => 0

theorem lastConvergent_three_two : lastConvergent 3 2 = some (3, 1) := by
  rw [lastConvergent, get_continued_fraction,
    gcfList_succ_of_eq 1 3 3 (by norm_num) (by norm_num)]
  rfl

theorem find_eval_example :
    find_pi_approximation_to_d_digits 1 1 3 wApprox wErr 1 =
      some (foundDict 1 1 3 1 3 0) := by
  rw [find_pi_approximation_to_d_digits, findAux, lastConvergent_three_two,
    findStep_some, if_neg (by norm_num : ¬ (1 : ℤ) = 0),
    if_pos (by norm_num [wErr] : wErr 3 1 < 1)]
  rfl

/-- Witness for C2: with `k = 1`, `D = 1`, target value `3`, constant error
`0` and tolerance `1`, the controller returns the success dictionary for the
pair `(3, 1)` at the very first bound `T = 2`. -/
theorem C2_witness :
    (3 : ℚ) = wApprox 3 1 ∧ (0 : ℚ) = wErr 3 1 ∧ wErr 3 1 < 1 ∧
    ∃ T, 2 ≤ T ∧ lastConvergent 3 T = some (3, 1) ∧
      ∀ T', 2 ≤ T' → T' < T → ∀ p' q',
        lastConvergent 3 T' = some (p', q') → ¬ wErr p' q' < 1 :=
  C2_success_first_bound 1 1 le_rfl le_rfl 3 wApprox wErr 1 3 1 3 0
    find_eval_example

/-- C6: for every `k ≥ 1` and `D ≥ 1` (and any target value, root map,
error map and tolerance), the search controller returns: its value is
`some` of either the failure dictionary (after the `50`-term safety ceiling
is exceeded) or a success dictionary for a pair passing the accuracy test —
the loop neither hangs (fuel is never exhausted) nor fails on an empty
convergent list. -/
theorem C6_terminates (k D : ℤ) (hk : 1 ≤ k) (hD : 1 ≤ D) (x : ℚ)
    (approxF errF : ℤ → ℤ → ℚ) (tol : ℚ) :
    ∃ r, find_pi_approximation_to_d_digits k D x approxF errF tol = some r ∧
      (r = notFoundDict ∨
        ∃ p q, r = foundDict k D p q (approxF p q) (errF p q) ∧
          errF p q < tol ∧ 1 ≤ q) :=
  findAux_returns k D x approxF errF tol 60 2 (by omega) (by omega) (by omega)

/-- Witness for C6 at `k = 1`, `D = 1`, target `3`, tolerance `1`. -/
theorem C6_witness :
    ∃ r, find_pi_approximation_to_d_digits 1 1 3 wApprox wErr 1 = some r ∧
      (r = notFoundDict ∨
        ∃ p q, r = foundDict 1 1 p q (wApprox p q) (wErr p q) ∧
          wErr p q < 1 ∧ 1 ≤ q) :=
  C6_terminates 1 1 le_rfl le_rfl 3 wApprox wErr 1

/-- C10: every dictionary the controller returns has a key `"error"`: in a
success dictionary it maps to the (float) error value and the convergent
keys are present; in the failure dictionary it maps to a message string and
is the only key.  Presence of `"error"` therefore does not distinguish the
two outcomes; presence of `"convergent_p"` does. -/
theorem C10_error_key_both_outcomes (k D : ℤ) (x : ℚ)
    (approxF errF : ℤ → ℤ → ℚ) (tol : ℚ) (r : List (String × PyVal))
    (h : find_pi_approximation_to_d_digits k D x approxF errF tol = some r) :
    "error" ∈ r.map Prod.fst ∧
    ((∃ p q a e, r = foundDict k D p q a e ∧
        r.lookup "error" = some (PyVal.float e) ∧
        "convergent_p" ∈ r.map Prod.fst) ∨
      (r = notFoundDict ∧ r.map Prod.fst = ["error"] ∧
        r.lookup "error" =
          some (PyVal.str "Could not find a suitable approximation.") ∧
        "convergent_p" ∉ r.map Prod.fst)) := by
  obtain ⟨r', hr', hshape⟩ :=
    findAux_returns k D x approxF errF tol 60 2 (by omega) (by omega) (by omega)
  rw [find_pi_approximation_to_d_digits] at h
  rw [h] at hr'
  obtain rfl : r = r' := Option.some.inj hr'
  rcases hshape with hnf | ⟨p, q, heq, -, -⟩
  · subst hnf
    exact ⟨by simp [notFoundDict], Or.inr ⟨rfl, rfl, rfl, by simp [notFoundDict]⟩⟩
  · subst heq
    refine ⟨by simp [foundDict], Or.inl ⟨p, q, approxF p q, errF p q, rfl, rfl,
      by simp [foundDict]⟩⟩

/-- Witness for C10 on the concrete success run of the C2 witness. -/
theorem C10_witness :
    "error" ∈ (foundDict 1 1 3 1 3 0).map Prod.fst ∧
    ((∃ p q a e, foundDict 1 1 3 1 3 0 = foundDict 1 1 p q a e ∧
        (foundDict 1 1 3 1 3 0).lookup "error" = some (PyVal.float e) ∧
        "convergent_p" ∈ (foundDict 1 1 3 1 3 0).map Prod.fst) ∨
      (foundDict 1 1 3 1 3 0 = notFoundDict ∧
        (foundDict 1 1 3 1 3 0).map Prod.fst = ["error"] ∧
        (foundDict 1 1 3 1 3 0).lookup "error" =
          some (PyVal.str "Could not find a suitable approximation.") ∧
        "convergent_p" ∉ (foundDict 1 1 3 1 3 0).map Prod.fst)) :=
  C10_error_key_both_outcomes 1 1 3 wApprox wErr 1 (foundDict 1 1 3 1 3 0)
    find_eval_example

end PiConvergents
